import Mathlib

/-!
Verification of the wilem-bot Tak engine against its specification.

The development shallowly embeds the parts of the repository that the
checked properties speak about: the `Turn` data model, the pit-result
bookkeeping (`train/src/pit.rs`), the training-example trimming step
(`alpha-tak/src/lib.rs`), the search-tree introspection code
(`alpha-tak/src/search/debug.rs`), and — where the implementation crate
is not part of the visible sources — models built from the
specification text (move codec, PTN serialization, game-state `play`,
node `play`/`pick_move`).

Machine integers (`u32`, `usize`) are modelled as `Nat`; the counters
involved never overflow in the properties below.  `f32`/`f64` fields
that only feed comparisons are modelled as `ℚ`; the one place where
floating-point division semantics matter (`win_rate`) uses an explicit
model with a NaN value.
-/

/-- Player colour, as in `tak::colour::Colour`. -/
inductive Colour where
  | White
  | Black
deriving DecidableEq, Repr

/-- The opposite colour (`Colour::next`). -/
def Colour.next : Colour → Colour
  | .White => .Black
  | .Black => .White

/-- Piece shape, as in `tak::tile::Shape`. -/
inductive Shape where
  | Flat
  | Standing
  | Capstone
deriving DecidableEq, Repr

/-- Board coordinate, as in `tak::pos::Pos` (fields `x`, `y`). -/
structure Pos where
  x : Nat
  y : Nat
deriving DecidableEq, Repr

/-- Spread direction. -/
inductive Direction where
  | North
  | East
  | South
  | West
deriving DecidableEq, Repr

/-- A move: place a piece, or spread a stack in a direction dropping
`drops` pieces on consecutive squares (`tak::turn::Turn`). -/
inductive Turn where
  | Place (pos : Pos) (shape : Shape)
  | Spread (pos : Pos) (dir : Direction) (drops : List Nat)
deriving DecidableEq, Repr

/-- Reason a game was won. -/
inductive WinReason where
  | Road
  | Flats
  | Default
deriving DecidableEq, Repr

/-- Game result, as in `tak::game::GameResult`. -/
inductive GameResult where
  | Winner (colour : Colour) (reason : WinReason)
  | Draw
  | Ongoing
deriving DecidableEq, Repr

/-! ## Pit results (`train/src/pit.rs`) -/

/-- Outcome counters of a pitting run (`PitResult`): `wins`, `draws`,
`losses` are `u32` counters, modelled as `Nat`. -/
structure PitResult where
  wins : Nat
  draws : Nat
  losses : Nat
deriving DecidableEq, Repr

/-- Model of an `f64` value produced by dividing two nonnegative exact
integers: either NaN (from 0/0), positive infinity (from x/0 with
x > 0), or an exact rational quotient.  Rounding of nonzero finite
quotients is abstracted away; none of the proved properties depend on
it. -/
inductive F64 where
  | nan
  | inf
  | val (q : ℚ)
deriving DecidableEq, Repr

/-- IEEE-style division for nonnegative numerators: `0/0` is NaN,
`x/0` with `x > 0` is infinity, otherwise the quotient. -/
def fdiv (a b : ℚ) : F64 :=
  if b = 0 then (if a = 0 then .nan else .inf) else .val (a / b)

/-- `PitResult::win_rate`: `wins as f64 / (wins + losses) as f64`.
The `draws` counter does not appear, and the division has no zero
guard. -/
def PitResult.win_rate (r : PitResult) : F64 :=
  fdiv (r.wins : ℚ) ((r.wins : ℚ) + (r.losses : ℚ))

/-- `PitResult::update`: a `Winner` of the given colour counts as a
win, a `Winner` of the other colour as a loss, a `Draw` as a draw, and
`Ongoing` changes nothing. -/
def PitResult.update (r : PitResult) (result : GameResult) (colour : Colour) : PitResult :=
  match result with
  | .Winner winner _ =>
      if winner = colour then { r with wins := r.wins + 1 }
      else { r with losses := r.losses + 1 }
  | .Draw => { r with draws := r.draws + 1 }
  | .Ongoing => r

/-! ## Training-example trimming (`alpha-tak/src/lib.rs`, `training_loop`) -/

/-- Cap on retained training examples (`MAX_EXAMPLES`). -/
def MAX_EXAMPLES : Nat := 250000

/-- The trimming step of `training_loop`: when more than
`MAX_EXAMPLES` examples are held, reverse the list, truncate it to
`MAX_EXAMPLES`, and reverse it again. -/
def trimExamples {α : Type} (examples : List α) : List α :=
  if examples.length > MAX_EXAMPLES then
    ((examples.reverse.take MAX_EXAMPLES).reverse)
  else examples

/-! ## Theorems for the pit module and trimming -/

/-- C8: `win_rate` is the unguarded quotient `wins / (wins + losses)`,
ignoring `draws`; when `wins = 0` and `losses = 0` (for example when
every pitted game is drawn) the division is the IEEE `0/0`, i.e. NaN,
not a well-defined rate. -/
theorem win_rate_ignores_draws_and_divides_by_zero :
    (∀ r : PitResult, r.win_rate = fdiv (r.wins : ℚ) ((r.wins : ℚ) + (r.losses : ℚ))) ∧
    (∀ w d d' l : Nat, PitResult.win_rate ⟨w, d, l⟩ = PitResult.win_rate ⟨w, d', l⟩) ∧
    (∀ r : PitResult, r.wins = 0 → r.losses = 0 → r.win_rate = F64.nan) := by
  refine ⟨fun r => rfl, fun w d d' l => rfl, fun r hw hl => ?_⟩
  simp [PitResult.win_rate, fdiv, hw, hl]

/-- Witness for C8: a pit result of three draws and no decisive game
has win rate NaN. -/
theorem win_rate_ignores_draws_and_divides_by_zero_witness :
    PitResult.win_rate ⟨0, 3, 0⟩ = F64.nan :=
  win_rate_ignores_draws_and_divides_by_zero.2.2 ⟨0, 3, 0⟩ rfl rfl

/-- C9: `update` leaves the counters unchanged on `Ongoing` and
otherwise increments exactly one counter by one: `wins` for a winner
of the given colour, `losses` for a winner of the other colour, and
`draws` for a draw. -/
theorem pit_update_counts :
    ∀ (r : PitResult) (c : Colour),
      r.update .Ongoing c = r ∧
      (∀ reason, r.update (.Winner c reason) c = ⟨r.wins + 1, r.draws, r.losses⟩) ∧
      (∀ w reason, w ≠ c → r.update (.Winner w reason) c = ⟨r.wins, r.draws, r.losses + 1⟩) ∧
      r.update .Draw c = ⟨r.wins, r.draws + 1, r.losses⟩ := by
  intro r c
  refine ⟨rfl, fun reason => by simp [PitResult.update], fun w reason hw => ?_, rfl⟩
  simp [PitResult.update, hw]

/-- Witness for C9: a black win counted for white is a loss. -/
theorem pit_update_counts_witness :
    PitResult.update ⟨1, 2, 3⟩ (.Winner .Black .Road) .White = ⟨1, 2, 4⟩ :=
  ((pit_update_counts ⟨1, 2, 3⟩ .White).2.2.1 .Black .Road (by decide))

/-- C10: the reverse/truncate/reverse trimming step keeps exactly the
last `min (length, MAX_EXAMPLES)` elements of the list, in their
original order. -/
theorem trimExamples_eq_suffix :
    ∀ (α : Type) (l : List α),
      trimExamples l = l.drop (l.length - MAX_EXAMPLES) ∧
      (trimExamples l).length = min l.length MAX_EXAMPLES := by
  intro α l
  have key : trimExamples l = l.drop (l.length - MAX_EXAMPLES) := by
    unfold trimExamples
    by_cases h : l.length > MAX_EXAMPLES
    · simp only [h, if_true]
      have := (List.rtake_eq_reverse_take_reverse l MAX_EXAMPLES).symm
      rw [this, List.rtake]
    · simp only [h, if_false]
      have : l.length - MAX_EXAMPLES = 0 := by omega
      rw [this, List.drop_zero]
  refine ⟨key, ?_⟩
  rw [key, List.length_drop]
  omega

/-! ## Search tree nodes (`alpha-tak/src/search`)

`Node` mirrors the MCTS node of the spec's data model: a map from
`Turn` to child node (the `HashMap` is modelled as an association
list; the `HashMap` key-uniqueness invariant appears as the `Nodup`
hypotheses below), a `u32` visit counter, the running expected reward
and prior probability (`f32`, modelled as `ℚ`), and a cached game
result. -/

inductive Node where
  | mk (children : List (Turn × Node)) (visits : Nat)
       (expected_reward : ℚ) (policy : ℚ) (result : GameResult)

/-- The turn-to-child map of a node. -/
def Node.children : Node → List (Turn × Node)
  | .mk c _ _ _ _ => c

/-- The visit counter of a node. -/
def Node.visits : Node → Nat
  | .mk _ v _ _ _ => v

/-- The running mean reward estimate of a node. -/
def Node.expected_reward : Node → ℚ
  | .mk _ _ e _ _ => e

/-- The prior probability of a node. -/
def Node.policy : Node → ℚ
  | .mk _ _ _ p _ => p

/-- The cached game result of a node. -/
def Node.result : Node → GameResult
  | .mk _ _ _ _ r => r

/-- Whether the cached result of the node is `Ongoing`
(`Node::is_game_ongoing` in `search/debug.rs`). -/
def Node.isGameOngoing (n : Node) : Bool :=
  match n.result with
  | .Ongoing => true
  | _ => false

/-- Whether `p` beats the current best child under the deterministic
selection order: strictly more visits, or equal visits and strictly
higher prior.  Keeping the incumbent on full ties makes the first
child in enumeration order win. -/
def betterPair (p best : Turn × Node) : Bool :=
  decide (best.2.visits < p.2.visits) ||
    (decide (p.2.visits = best.2.visits) && decide (best.2.policy < p.2.policy))

/-- Modelled from the spec: the deterministic (no-exploration) branch
of `Node::pick_move`, whose implementation (`mcts` module) is not
among the visible sources — "deterministically select the most-visited
child, breaking ties by highest prior then by a fixed enumeration
order".  Returns the selected child entry. -/
def pickFrom : List (Turn × Node) → Option (Turn × Node)
  | [] => none
  | c :: cs => some (cs.foldl (fun best p => if betterPair p best then p else best) c)

/-- The selected child entry of a node. -/
def Node.pickMovePair (n : Node) : Option (Turn × Node) :=
  pickFrom n.children

/-- Modelled from the spec: `Node::pick_move` without exploration —
the move of the most-visited child under the deterministic tie-break
order.  `none` models the panic on a node without children. -/
def Node.pickMove (n : Node) : Option Turn :=
  n.pickMovePair.map Prod.fst

/-- Lookup in the turn-to-child association list (the model of
`HashMap::get`). -/
def lookupChild : List (Turn × Node) → Turn → Option Node
  | [], _ => none
  | (t', c) :: rest, t => if t' = t then some c else lookupChild rest t

/-- Recursion core of `Node::continuation`, structurally recursive on
the remaining depth. -/
def continuationAux (minVisitCount : Nat) : Nat → Node → List Turn
  | 0, _ => []
  | d + 1, n =>
    if n.children.isEmpty then []
    else if n.isGameOngoing = true ∧ n.visits ≤ minVisitCount then []
    else
      match n.pickMove with
      | none => []
      | some t =>
        match lookupChild n.children t with
        | none => []
        | some c => t :: continuationAux minVisitCount d c

/-- `Node::continuation` (`search/debug.rs`): return immediately if
the depth is zero, the node has no children, or the game is ongoing
and the node was visited at most `min_visit_count` times; otherwise
pick the deterministic best move, look up its child, and recurse. -/
def Node.continuation (n : Node) (minVisitCount depth : Nat) : List Turn :=
  continuationAux minVisitCount depth n

/-- Modelled from the spec: `Node::play` (`mcts` module, not among the
visible sources) — "commits a real move; returns the subtree rooted at
the chosen child (transferring ownership), discarding all sibling
subtrees". -/
def Node.play (n : Node) (t : Turn) : Option Node :=
  lookupChild n.children t

/-- Well-formedness of a search tree: at every node the turn keys of
the child map are distinct (the `HashMap` invariant). -/
inductive Node.WF : Node → Prop where
  | mk (children : List (Turn × Node)) (visits : Nat)
       (expected_reward policy : ℚ) (result : GameResult) :
      (children.map Prod.fst).Nodup →
      (∀ t c, (t, c) ∈ children → Node.WF c) →
      Node.WF (.mk children visits expected_reward policy result)

/-- A move sequence is a greedy principal variation from `n`: each
move in it leads to a child with maximal visit count at the node where
it was chosen, and the rest of the sequence is greedy from that
child. -/
inductive GreedyPV : Node → List Turn → Prop where
  | nil (n : Node) : GreedyPV n []
  | cons (n : Node) (t : Turn) (c : Node) (rest : List Turn) :
      (t, c) ∈ n.children →
      (∀ p ∈ n.children, p.2.visits ≤ c.visits) →
      GreedyPV c rest →
      GreedyPV n (t :: rest)

/-- Reachability in the owned node tree: `Reach n m` holds when `m` is
`n` itself or lies in the subtree of one of its children. -/
inductive Reach : Node → Node → Prop where
  | refl (n : Node) : Reach n n
  | child (n : Node) (t : Turn) (c m : Node) :
      (t, c) ∈ n.children → Reach c m → Reach n m

/-! ### Lemmas about the deterministic child selection -/

/-- Lexicographic "not better than" order used by the selection fold:
fewer visits, or equal visits and no higher prior. -/
def lexLE (q p : Turn × Node) : Prop :=
  q.2.visits < p.2.visits ∨ (q.2.visits = p.2.visits ∧ q.2.policy ≤ p.2.policy)

theorem lexLE_refl (p : Turn × Node) : lexLE p p := by
  right; exact ⟨rfl, le_refl _⟩

theorem lexLE_trans (a b c : Turn × Node) (h1 : lexLE a b) (h2 : lexLE b c) : lexLE a c := by
  rcases h1 with h1 | ⟨h1, h1'⟩ <;> rcases h2 with h2 | ⟨h2, h2'⟩
  · exact Or.inl (h1.trans h2)
  · exact Or.inl (h2 ▸ h1)
  · exact Or.inl (h1 ▸ h2)
  · exact Or.inr ⟨h1.trans h2, h1'.trans h2'⟩

theorem betterPair_true_lexLE (p b : Turn × Node) (h : betterPair p b = true) : lexLE b p := by
  unfold betterPair at h
  simp only [Bool.or_eq_true, Bool.and_eq_true, decide_eq_true_eq] at h
  rcases h with h | ⟨h, h'⟩
  · exact Or.inl h
  · exact Or.inr ⟨h.symm, le_of_lt h'⟩

theorem betterPair_false_lexLE (p b : Turn × Node) (h : betterPair p b = false) : lexLE p b := by
  unfold betterPair at h
  simp only [Bool.or_eq_false_iff, Bool.and_eq_false_iff] at h
  obtain ⟨h1, h2⟩ := h
  simp only [decide_eq_false_iff_not, not_lt] at h1
  rcases lt_or_eq_of_le h1 with hlt | heq
  · exact Or.inl hlt
  · refine Or.inr ⟨heq, ?_⟩
    rcases h2 with h2 | h2
    · simp only [decide_eq_false_iff_not] at h2
      exact absurd heq h2
    · simp only [decide_eq_false_iff_not, not_lt] at h2
      exact h2

theorem pickFold_spec (cs : List (Turn × Node)) :
    ∀ acc : Turn × Node,
      (cs.foldl (fun best p => if betterPair p best then p else best) acc = acc ∨
        cs.foldl (fun best p => if betterPair p best then p else best) acc ∈ cs) ∧
      lexLE acc (cs.foldl (fun best p => if betterPair p best then p else best) acc) ∧
      (∀ q ∈ cs, lexLE q (cs.foldl (fun best p => if betterPair p best then p else best) acc)) := by
  induction cs with
  | nil => intro acc; exact ⟨Or.inl rfl, lexLE_refl acc, by intro q hq; cases hq⟩
  | cons c cs ih =>
    intro acc
    simp only [List.foldl_cons]
    by_cases hb : betterPair c acc = true
    · rw [if_pos hb]
      obtain ⟨hmem, hacc, hall⟩ := ih c
      refine ⟨?_, ?_, ?_⟩
      · rcases hmem with h | h
        · right; rw [h]; exact List.mem_cons_self c cs
        · exact Or.inr (List.mem_cons_of_mem c h)
      · exact lexLE_trans _ _ _ (betterPair_true_lexLE c acc hb) hacc
      · intro q hq
        rcases List.mem_cons.mp hq with rfl | hq
        · exact hacc
        · exact hall q hq
    · rw [if_neg hb]
      obtain ⟨hmem, hacc, hall⟩ := ih acc
      refine ⟨?_, hacc, ?_⟩
      · rcases hmem with h | h
        · exact Or.inl h
        · exact Or.inr (List.mem_cons_of_mem c h)
      · intro q hq
        rcases List.mem_cons.mp hq with rfl | hq
        · exact lexLE_trans _ _ _ (betterPair_false_lexLE q acc (Bool.eq_false_iff.mpr hb)) hacc
        · exact hall q hq

theorem pickFrom_mem (l : List (Turn × Node)) (p : Turn × Node)
    (h : pickFrom l = some p) : p ∈ l := by
  cases l with
  | nil => cases h
  | cons c cs =>
    simp only [pickFrom, Option.some.injEq] at h
    obtain ⟨hmem, _, _⟩ := pickFold_spec cs c
    subst h
    rcases hmem with hm | hm
    · rw [hm]; exact List.mem_cons_self c cs
    · exact List.mem_cons_of_mem c hm

theorem pickFrom_max (l : List (Turn × Node)) (p : Turn × Node)
    (h : pickFrom l = some p) : ∀ q ∈ l, lexLE q p := by
  cases l with
  | nil => cases h
  | cons c cs =>
    simp only [pickFrom, Option.some.injEq] at h
    obtain ⟨_, hacc, hall⟩ := pickFold_spec cs c
    subst h
    intro q hq
    rcases List.mem_cons.mp hq with rfl | hq
    · exact hacc
    · exact hall q hq

theorem pickFrom_isSome (l : List (Turn × Node)) (hne : l ≠ []) :
    ∃ p, pickFrom l = some p := by
  cases l with
  | nil => exact absurd rfl hne
  | cons c cs => exact ⟨_, rfl⟩

/-! ### Lemmas about child lookup -/

theorem lookupChild_mem (l : List (Turn × Node)) (t : Turn) (c : Node)
    (h : lookupChild l t = some c) : (t, c) ∈ l := by
  induction l with
  | nil => cases h
  | cons hd tl ih =>
    obtain ⟨t', c'⟩ := hd
    simp only [lookupChild] at h
    by_cases he : t' = t
    · rw [if_pos he] at h
      cases h
      exact he ▸ List.mem_cons_self _ _
    · rw [if_neg he] at h
      exact List.mem_cons_of_mem _ (ih h)

theorem lookupChild_isSome_of_mem (l : List (Turn × Node)) (t : Turn) (c : Node)
    (h : (t, c) ∈ l) : ∃ c', lookupChild l t = some c' := by
  induction l with
  | nil => cases h
  | cons hd tl ih =>
    obtain ⟨t', c'⟩ := hd
    by_cases he : t' = t
    · exact ⟨c', by simp [lookupChild, he]⟩
    · rcases List.mem_cons.mp h with heq | hmem
      · cases heq; exact absurd rfl he
      · obtain ⟨c'', hc⟩ := ih hmem
        exact ⟨c'', by simp [lookupChild, he, hc]⟩

theorem lookupChild_nodup (l : List (Turn × Node)) (t : Turn) (c : Node)
    (hnd : (l.map Prod.fst).Nodup) (h : (t, c) ∈ l) : lookupChild l t = some c := by
  induction l with
  | nil => cases h
  | cons hd tl ih =>
    obtain ⟨t', c'⟩ := hd
    simp only [List.map_cons, List.nodup_cons] at hnd
    obtain ⟨hnotin, hnd'⟩ := hnd
    rcases List.mem_cons.mp h with heq | hmem
    · cases heq
      simp [lookupChild]
    · have hne : t' ≠ t := by
        intro he
        exact hnotin (he ▸ List.mem_map_of_mem Prod.fst hmem)
      simp only [lookupChild, if_neg hne]
      exact ih hnd' hmem

theorem lexLE_visits_le (q p : Turn × Node) (h : lexLE q p) :
    q.2.visits ≤ p.2.visits := by
  rcases h with h | ⟨h, _⟩
  · exact le_of_lt h
  · exact le_of_eq h

theorem lexLE_policy_le (q p : Turn × Node) (h : lexLE q p)
    (hv : q.2.visits = p.2.visits) : q.2.policy ≤ p.2.policy := by
  rcases h with h | ⟨_, h⟩
  · omega
  · exact h

theorem continuationAux_length (m : Nat) :
    ∀ (d : Nat) (n : Node), (continuationAux m d n).length ≤ d := by
  intro d
  induction d with
  | zero => intro n; simp [continuationAux]
  | succ d ih =>
    intro n
    unfold continuationAux
    by_cases h1 : n.children.isEmpty
    · simp [h1]
    · rw [if_neg h1]
      by_cases h2 : n.isGameOngoing = true ∧ n.visits ≤ m
      · simp [h2]
      · rw [if_neg h2]
        cases hp : n.pickMove with
        | none => simp [hp]
        | some t =>
          cases hl : lookupChild n.children t with
          | none => simp [hp, hl]
          | some c =>
            simp only [hp, hl, List.length_cons]
            exact Nat.succ_le_succ (ih c)

theorem continuationAux_succ_cons (m d : Nat) (n : Node)
    (h1 : ¬n.children.isEmpty = true)
    (h2 : ¬(n.isGameOngoing = true ∧ n.visits ≤ m)) :
    ∃ t rest, continuationAux m (d + 1) n = t :: rest := by
  have hne : n.children ≠ [] := by
    intro he
    apply h1
    rw [he]
    rfl
  obtain ⟨p, hp⟩ := pickFrom_isSome n.children hne
  have hpm : Node.pickMove n = some p.1 := by
    simp [Node.pickMove, Node.pickMovePair, hp]
  have hmem : (p.1, p.2) ∈ n.children := by
    have := pickFrom_mem n.children p hp
    simpa using this
  obtain ⟨c', hc'⟩ := lookupChild_isSome_of_mem n.children p.1 p.2 hmem
  refine ⟨p.1, continuationAux m d c', ?_⟩
  conv_lhs => rw [continuationAux]
  rw [if_neg h1, if_neg h2, hpm]
  simp only [hc']

/-- C4 (amended): `continuation` stops exactly when the remaining
depth reaches 0, the node has no children, or the result is `Ongoing`
and the node was visited at most `min_visit_count` times (the code
compares `visits <= min_visit_count`, not strictly); the returned
sequence has length at most the depth bound. -/
theorem continuation_stop_condition :
    ∀ (n : Node) (m d : Nat),
      (Node.continuation n m d = [] ↔
        (d = 0 ∨ n.children.isEmpty = true ∨
          (n.isGameOngoing = true ∧ n.visits ≤ m))) ∧
      (Node.continuation n m d).length ≤ d := by
  intro n m d
  refine ⟨⟨?_, ?_⟩, continuationAux_length m d n⟩
  · intro h
    cases d with
    | zero => exact Or.inl rfl
    | succ d =>
      by_cases h1 : n.children.isEmpty = true
      · exact Or.inr (Or.inl h1)
      · by_cases h2 : n.isGameOngoing = true ∧ n.visits ≤ m
        · exact Or.inr (Or.inr h2)
        · obtain ⟨t, rest, hc⟩ := continuationAux_succ_cons m d n h1 h2
          rw [show Node.continuation n m (d + 1) = continuationAux m (d + 1) n from rfl, hc] at h
          cases h
  · intro h
    rcases h with h | h | h
    · rw [h]
      rfl
    · cases d with
      | zero => rfl
      | succ d =>
        show continuationAux m (d + 1) n = []
        unfold continuationAux
        rw [if_pos h]
    · cases d with
      | zero => rfl
      | succ d =>
        show continuationAux m (d + 1) n = []
        unfold continuationAux
        by_cases h1 : n.children.isEmpty = true
        · rw [if_pos h1]
        · rw [if_neg h1, if_pos h]

/-- Leaf nodes are well-formed. -/
theorem wf_leaf (v : Nat) (e p : ℚ) (r : GameResult) : Node.WF (.mk [] v e p r) :=
  Node.WF.mk [] v e p r (by simp) (fun t c h => by cases h)

/-- A node with one child, an `Ongoing` result and exactly
`min_visit_count` visits: the code stops there, the claim's strict
reading does not. -/
def cexChild : Node := .mk [] 0 0 0 .Ongoing

/-- One-child root with visit count 1 used to separate `visits <= m`
from `visits < m`. -/
def cexNode : Node := .mk [(Turn.Place ⟨0, 0⟩ Shape.Flat, cexChild)] 1 0 0 .Ongoing

/-- Counterexample for C4 as stated: at `min_visit_count = 1`,
`depth = 1`, on an ongoing one-child node with exactly 1 visit, the
code returns the empty sequence although none of the claim's stop
conditions (depth 0, no children, visited fewer than `m` times)
holds. -/
theorem continuation_stop_condition_cex :
    Node.continuation cexNode 1 1 = [] ∧
    ¬(1 = 0 ∨ cexNode.children.isEmpty = true ∨
        (cexNode.isGameOngoing = true ∧ cexNode.visits < 1)) := by
  constructor
  · rfl
  · decide

/-- C3: every turn of the sequence returned by `continuation` is the
move leading to a child with the highest visit count at the node where
it was chosen (the principal variation greedily follows the
most-visited child), for any well-formed tree. -/
theorem continuation_follows_most_visited :
    ∀ (d : Nat) (n : Node) (m : Nat), Node.WF n →
      GreedyPV n (Node.continuation n m d) := by
  intro d
  induction d with
  | zero => intro n m _; exact GreedyPV.nil n
  | succ d ih =>
    intro n m hwf
    show GreedyPV n (continuationAux m (d + 1) n)
    unfold continuationAux
    by_cases h1 : n.children.isEmpty
    · rw [if_pos h1]; exact GreedyPV.nil n
    · rw [if_neg h1]
      by_cases h2 : n.isGameOngoing = true ∧ n.visits ≤ m
      · rw [if_pos h2]; exact GreedyPV.nil n
      · rw [if_neg h2]
        have hne : n.children ≠ [] := by
          intro he
          apply h1
          rw [he]
          rfl
        obtain ⟨p, hp⟩ := pickFrom_isSome n.children hne
        obtain ⟨t, c⟩ := p
        have hpm : Node.pickMove n = some t := by
          simp [Node.pickMove, Node.pickMovePair, hp]
        rw [hpm]
        have hmem : (t, c) ∈ n.children := pickFrom_mem n.children (t, c) hp
        have hnd : (n.children.map Prod.fst).Nodup := by
          cases hwf with
          | mk children visits er pol res hnd hch => exact hnd
        have hlk : lookupChild n.children t = some c :=
          lookupChild_nodup n.children t c hnd hmem
        simp only [hlk]
        have hwfc : Node.WF c := by
          cases hwf with
          | mk children visits er pol res hnd' hch => exact hch t c hmem
        refine GreedyPV.cons n t c _ hmem ?_ (ih c m hwfc)
        intro q hq
        exact lexLE_visits_le q (t, c) (pickFrom_max n.children (t, c) hp q hq)

/-- Child used by the C3 witness tree: three visits. -/
def wNodeA : Node := .mk [] 3 0 0 .Ongoing

/-- Child used by the C3 witness tree: one visit. -/
def wNodeB : Node := .mk [] 1 0 0 .Ongoing

/-- Root of the C3 witness tree. -/
def wRoot : Node :=
  .mk [(Turn.Place ⟨0, 0⟩ Shape.Flat, wNodeA), (Turn.Place ⟨1, 0⟩ Shape.Flat, wNodeB)]
    10 0 0 .Ongoing

/-- Witness for C3 on a concrete two-child tree. -/
theorem continuation_follows_most_visited_witness :
    GreedyPV wRoot (Node.continuation wRoot 0 2) := by
  refine continuation_follows_most_visited 2 wRoot 0 ?_
  refine Node.WF.mk _ 10 0 0 .Ongoing (by decide) ?_
  intro t c h
  cases h with
  | head => exact wf_leaf 3 0 0 .Ongoing
  | tail _ h' =>
    cases h' with
    | head => exact wf_leaf 1 0 0 .Ongoing
    | tail _ h'' => cases h''

/-- C6: `pick_move` with exploration disabled is a pure function of
the node's child map: two nodes with identical children (hence
identical visit counts and priors) yield the same move, and the move
returned leads to a child with maximal visit count, with ties broken
towards the highest prior (then first in enumeration order). -/
theorem pick_move_deterministic_argmax :
    ∀ a b : Node, a.children = b.children →
      a.pickMove = b.pickMove ∧
      (∀ t, a.pickMove = some t → ∃ c, (t, c) ∈ a.children ∧
        (∀ p ∈ a.children, p.2.visits ≤ c.visits) ∧
        (∀ p ∈ a.children, p.2.visits = c.visits → p.2.policy ≤ c.policy)) := by
  intro a b h
  constructor
  · show (pickFrom a.children).map Prod.fst = (pickFrom b.children).map Prod.fst
    rw [h]
  · intro t ht
    simp only [Node.pickMove, Node.pickMovePair] at ht
    obtain ⟨p, hp, hpt⟩ := Option.map_eq_some'.mp ht
    obtain ⟨t', c⟩ := p
    cases hpt
    refine ⟨c, pickFrom_mem a.children (t', c) hp, ?_, ?_⟩
    · intro q hq
      exact lexLE_visits_le q (t', c) (pickFrom_max a.children (t', c) hp q hq)
    · intro q hq hv
      exact lexLE_policy_le q (t', c) (pickFrom_max a.children (t', c) hp q hq) hv

/-- Children shared by the two C6 witness nodes. -/
def detChildren : List (Turn × Node) :=
  [(Turn.Place ⟨0, 0⟩ Shape.Flat, .mk [] 2 0 0 .Ongoing),
   (Turn.Place ⟨1, 1⟩ Shape.Flat, .mk [] 2 0 (1 / 2) .Ongoing)]

/-- First C6 witness node. -/
def detA : Node := .mk detChildren 7 0 0 .Ongoing

/-- Second C6 witness node: same children, all other fields different. -/
def detB : Node := .mk detChildren 3 (1 / 2) 1 .Draw

/-- Witness for C6: the two witness nodes select the same move. -/
theorem pick_move_deterministic_argmax_witness :
    Node.pickMove detA = Node.pickMove detB :=
  (pick_move_deterministic_argmax detA detB rfl).1

/-- C5: for a well-formed child map containing `turn`, `Node::play`
returns exactly the child subtree for that turn — with its visit count
(and all other statistics) unchanged — and everything reachable from
the returned node is exactly what is reachable inside that child
subtree, so no sibling branch of the old root remains. -/
theorem node_play_returns_child_subtree :
    ∀ (n c : Node) (t : Turn),
      (n.children.map Prod.fst).Nodup → (t, c) ∈ n.children →
      Node.play n t = some c ∧
      (Node.play n t).map Node.visits = some c.visits ∧
      (∀ x : Node, (∃ r, Node.play n t = some r ∧ Reach r x) ↔ Reach c x) := by
  intro n c t hnd hmem
  have hp : Node.play n t = some c := lookupChild_nodup n.children t c hnd hmem
  refine ⟨hp, by rw [hp]; rfl, fun x => ⟨?_, fun hx => ⟨c, hp, hx⟩⟩⟩
  rintro ⟨r, hr, hrx⟩
  rw [hp] at hr
  injection hr with h
  rw [h]
  exact hrx

/-- Child kept by the C5 witness. -/
def playChildA : Node := .mk [] 5 0 0 .Ongoing

/-- Sibling discarded by the C5 witness. -/
def playChildB : Node := .mk [] 2 0 0 .Ongoing

/-- Parent node of the C5 witness. -/
def playParent : Node :=
  .mk [(Turn.Place ⟨0, 0⟩ Shape.Flat, playChildA), (Turn.Place ⟨1, 0⟩ Shape.Flat, playChildB)]
    8 0 0 .Ongoing

/-- Witness for C5 on a concrete two-child node. -/
theorem node_play_returns_child_subtree_witness :
    Node.play playParent (Turn.Place ⟨0, 0⟩ Shape.Flat) = some playChildA :=
  (node_play_returns_child_subtree playParent playChildA (Turn.Place ⟨0, 0⟩ Shape.Flat)
    (by decide) (List.Mem.head _)).1

/-! ## Move codec (spec §4.2)

Modelled from the spec: the `turn_map::Lut` implementation is not
among the visible sources.  The spec requires "a pure, stateless
bijection between a Turn and an integer index in `[0, A(N))` where
`A(N)` is the total action-space size for board size N (a function of
placement squares × shapes, plus spread origin × direction ×
drop-count patterns)", purely geometric, with
`decode(encode(t)) = t`, totality over the legal-move universe, and
no collisions.  Drop-count patterns (ordered compositions with sum at
most `N`) are put in bijection with `[0, 2^N - 1)` through the
standard binary encoding of compositions. -/

/-- Geometric legality of a move on an `N`-by-`N` board: coordinates
in bounds; a spread carries a nonempty list of positive drop counts
whose sum respects the carry limit `N`. -/
def Turn.validGeom (N : Nat) : Turn → Prop
  | .Place p _ => p.x < N ∧ p.y < N
  | .Spread p _ ds => p.x < N ∧ p.y < N ∧ ds ≠ [] ∧ (∀ d ∈ ds, 1 ≤ d) ∧ ds.sum ≤ N

instance (N : Nat) : (t : Turn) → Decidable (Turn.validGeom N t)
  | .Place _ _ => inferInstanceAs (Decidable (_ ∧ _))
  | .Spread _ _ _ => inferInstanceAs (Decidable (_ ∧ _ ∧ _ ∧ _ ∧ _))

/-- Index of a shape within a placement slot. -/
def shapeIdx : Shape → Nat
  | .Flat => 0
  | .Standing => 1
  | .Capstone => 2

/-- Inverse of `shapeIdx`. -/
def shapeOfIdx : Nat → Shape
  | 0 => .Flat
  | 1 => .Standing
  | _ => .Capstone

/-- Index of a spread direction. -/
def dirIdx : Direction → Nat
  | .North => 0
  | .East => 1
  | .South => 2
  | .West => 3

/-- Inverse of `dirIdx`. -/
def dirOfIdx : Nat → Direction
  | 0 => .North
  | 1 => .East
  | 2 => .South
  | _ => .West

/-- Row-major index of a square. -/
def posIdx (N : Nat) (p : Pos) : Nat := p.x + N * p.y

/-- Binary encoding of a drop-count composition: a composition of `c`
maps into `[2^(c-1), 2^c)`, so compositions with sum in `[1, N]` map
bijectively into `[1, 2^N)`. -/
def encDrops : List Nat → Nat
  | [] => 0
  | d :: ds => encDrops ds * 2 ^ d + 2 ^ (d - 1)

/-- Fuelled count of trailing zero bits. -/
def tzAux : Nat → Nat → Nat
  | 0, _ => 0
  | fuel + 1, m => if m % 2 = 1 ∨ m = 0 then 0 else tzAux fuel (m / 2) + 1

/-- Number of trailing zero bits of a positive number. -/
def tz (m : Nat) : Nat := tzAux m m

/-- Fuelled inverse of `encDrops`: repeatedly strip the lowest part. -/
def decDropsAux : Nat → Nat → List Nat
  | 0, _ => []
  | fuel + 1, m =>
    if m = 0 then []
    else (tz m + 1) :: decDropsAux fuel (m / 2 ^ (tz m + 1))

/-- Inverse of `encDrops` on codes of valid compositions. -/
def decDrops (m : Nat) : List Nat := decDropsAux m m

/-- Total action-space size for board size `N`: `3·N²` placements
plus `4·N²·(2^N − 1)` spreads. -/
def actionSpaceSize (N : Nat) : Nat :=
  3 * (N * N) + 4 * (N * N) * (2 ^ N - 1)

/-- Encode a move as an index in `[0, A(N))`: placements first
(square-major, shape-minor), then spreads (square, direction,
drop-pattern code). -/
def encodeMove (N : Nat) : Turn → Nat
  | .Place p s => posIdx N p * 3 + shapeIdx s
  | .Spread p dir ds =>
      3 * (N * N) + ((posIdx N p * 4 + dirIdx dir) * (2 ^ N - 1) + (encDrops ds - 1))

/-- Decode an index back into a move. -/
def decodeMove (N idx : Nat) : Option Turn :=
  if idx < 3 * (N * N) then
    some (.Place ⟨idx / 3 % N, idx / 3 / N⟩ (shapeOfIdx (idx % 3)))
  else
    some (.Spread
      ⟨(idx - 3 * (N * N)) / (2 ^ N - 1) / 4 % N,
       (idx - 3 * (N * N)) / (2 ^ N - 1) / 4 / N⟩
      (dirOfIdx ((idx - 3 * (N * N)) / (2 ^ N - 1) % 4))
      (decDrops ((idx - 3 * (N * N)) % (2 ^ N - 1) + 1)))

/-! ### Arithmetic lemmas for the codec -/

theorem posIdx_lt (N : Nat) (p : Pos) (hx : p.x < N) (hy : p.y < N) :
    posIdx N p < N * N := by
  unfold posIdx
  have h1 : N * (p.y + 1) ≤ N * N := Nat.mul_le_mul_left N (by omega)
  have h2 : N * (p.y + 1) = N * p.y + N := by ring
  omega

theorem posIdx_mod (N : Nat) (p : Pos) (hx : p.x < N) :
    posIdx N p % N = p.x := by
  unfold posIdx
  rw [Nat.add_mul_mod_self_left, Nat.mod_eq_of_lt hx]

theorem posIdx_div (N : Nat) (p : Pos) (hx : p.x < N) :
    posIdx N p / N = p.y := by
  unfold posIdx
  rw [Nat.add_mul_div_left _ _ (by omega : 0 < N), Nat.div_eq_of_lt hx]
  omega

theorem shapeIdx_lt (s : Shape) : shapeIdx s < 3 := by
  cases s <;> simp [shapeIdx]

theorem shapeOfIdx_shapeIdx (s : Shape) : shapeOfIdx (shapeIdx s) = s := by
  cases s <;> rfl

theorem dirIdx_lt (d : Direction) : dirIdx d < 4 := by
  cases d <;> simp [dirIdx]

theorem dirOfIdx_dirIdx (d : Direction) : dirOfIdx (dirIdx d) = d := by
  cases d <;> rfl

theorem encDrops_pos (ds : List Nat) (hne : ds ≠ []) : 1 ≤ encDrops ds := by
  cases ds with
  | nil => exact absurd rfl hne
  | cons d ds =>
    have : 1 ≤ 2 ^ (d - 1) := Nat.one_le_two_pow
    simp only [encDrops]
    omega

theorem encDrops_lt (ds : List Nat) (h1 : ∀ d ∈ ds, 1 ≤ d) :
    encDrops ds < 2 ^ ds.sum := by
  induction ds with
  | nil => simp [encDrops]
  | cons d ds ih =>
    have hd : 1 ≤ d := h1 d (List.mem_cons_self d ds)
    have ihh := ih (fun x hx => h1 x (List.mem_cons_of_mem d hx))
    simp only [encDrops, List.sum_cons]
    have hlt : 2 ^ (d - 1) < 2 ^ d :=
      Nat.pow_lt_pow_right (by omega) (by omega)
    have step : encDrops ds * 2 ^ d + 2 ^ (d - 1) < (encDrops ds + 1) * 2 ^ d := by
      have expand : (encDrops ds + 1) * 2 ^ d = encDrops ds * 2 ^ d + 2 ^ d := by ring
      omega
    have step2 : (encDrops ds + 1) * 2 ^ d ≤ 2 ^ ds.sum * 2 ^ d :=
      Nat.mul_le_mul_right _ (by omega)
    calc encDrops ds * 2 ^ d + 2 ^ (d - 1)
        < (encDrops ds + 1) * 2 ^ d := step
      _ ≤ 2 ^ ds.sum * 2 ^ d := step2
      _ = 2 ^ (d + ds.sum) := by rw [← Nat.pow_add, Nat.add_comm]

theorem tzAux_spec :
    ∀ (e k fuel : Nat), k * 2 ^ (e + 1) + 2 ^ e ≤ fuel →
      tzAux fuel (k * 2 ^ (e + 1) + 2 ^ e) = e := by
  intro e
  induction e with
  | zero =>
    intro k fuel hf
    have hm : k * 2 ^ (0 + 1) + 2 ^ 0 = 2 * k + 1 := by ring
    rw [hm] at hf ⊢
    cases fuel with
    | zero => omega
    | succ f =>
      simp only [tzAux]
      rw [if_pos (Or.inl (by omega))]
  | succ e ih =>
    intro k fuel hf
    have key : k * 2 ^ (e + 1 + 1) + 2 ^ (e + 1) = 2 * (k * 2 ^ (e + 1) + 2 ^ e) := by ring
    rw [key] at hf ⊢
    have hm1 : 1 ≤ k * 2 ^ (e + 1) + 2 ^ e := by
      have : 1 ≤ 2 ^ e := Nat.one_le_two_pow
      omega
    cases fuel with
    | zero => omega
    | succ f =>
      simp only [tzAux]
      rw [if_neg (by omega)]
      have hdiv : 2 * (k * 2 ^ (e + 1) + 2 ^ e) / 2 = k * 2 ^ (e + 1) + 2 ^ e := by omega
      rw [hdiv, ih k f (by omega)]

theorem tz_enc (k e : Nat) : tz (k * 2 ^ (e + 1) + 2 ^ e) = e :=
  tzAux_spec e k _ (le_refl _)

theorem decDropsAux_zero : ∀ fuel, decDropsAux fuel 0 = [] := by
  intro fuel
  cases fuel <;> rfl

theorem decDropsAux_encDrops (ds : List Nat) (h1 : ∀ d ∈ ds, 1 ≤ d) :
    ∀ fuel, encDrops ds ≤ fuel → decDropsAux fuel (encDrops ds) = ds := by
  induction ds with
  | nil => intro fuel _; exact decDropsAux_zero fuel
  | cons d ds ih =>
    intro fuel hf
    have hd : 1 ≤ d := h1 d (List.mem_cons_self d ds)
    obtain ⟨e, rfl⟩ : ∃ e, d = e + 1 := ⟨d - 1, by omega⟩
    have henc : encDrops ((e + 1) :: ds) = encDrops ds * 2 ^ (e + 1) + 2 ^ e := by
      simp only [encDrops, Nat.add_sub_cancel]
    rw [henc] at hf ⊢
    have hm1 : 1 ≤ encDrops ds * 2 ^ (e + 1) + 2 ^ e := by
      have : 1 ≤ 2 ^ e := Nat.one_le_two_pow
      omega
    cases fuel with
    | zero => omega
    | succ f =>
      simp only [decDropsAux]
      rw [if_neg (by omega)]
      have htz : tz (encDrops ds * 2 ^ (e + 1) + 2 ^ e) = e := tz_enc (encDrops ds) e
      rw [htz]
      have hsmall : 2 ^ e < 2 ^ (e + 1) := Nat.pow_lt_pow_right (by omega) (by omega)
      have hpow : 0 < 2 ^ (e + 1) := Nat.pos_pow_of_pos _ (by omega)
      have hdiv : (encDrops ds * 2 ^ (e + 1) + 2 ^ e) / 2 ^ (e + 1) = encDrops ds := by
        have hre : encDrops ds * 2 ^ (e + 1) + 2 ^ e =
            2 ^ (e + 1) * encDrops ds + 2 ^ e := by ring
        rw [hre, Nat.mul_add_div hpow, Nat.div_eq_of_lt hsmall, Nat.add_zero]
      rw [hdiv]
      have hlt : encDrops ds < encDrops ds * 2 ^ (e + 1) + 2 ^ e := by
        have h2 : 2 ≤ 2 ^ (e + 1) := by
          calc 2 = 2 ^ 1 := by norm_num
          _ ≤ 2 ^ (e + 1) := Nat.pow_le_pow_right (by omega) (by omega)
        have : encDrops ds * 2 ≤ encDrops ds * 2 ^ (e + 1) := Nat.mul_le_mul_left _ h2
        have h0 : 1 ≤ 2 ^ e := Nat.one_le_two_pow
        omega
      rw [ih (fun x hx => h1 x (List.mem_cons_of_mem _ hx)) f (by omega)]

theorem decDrops_encDrops (ds : List Nat) (h1 : ∀ d ∈ ds, 1 ≤ d) :
    decDrops (encDrops ds) = ds :=
  decDropsAux_encDrops ds h1 _ (le_refl _)

theorem decodeMove_encodeMove (N : Nat) (t : Turn) (hv : Turn.validGeom N t) :
    decodeMove N (encodeMove N t) = some t := by
  cases t with
  | Place p s =>
    obtain ⟨hx, hy⟩ := hv
    have hpi : posIdx N p < N * N := posIdx_lt N p hx hy
    have hsi : shapeIdx s < 3 := shapeIdx_lt s
    have hidx : posIdx N p * 3 + shapeIdx s < 3 * (N * N) := by omega
    simp only [encodeMove, decodeMove]
    rw [if_pos hidx]
    have e1 : posIdx N p * 3 + shapeIdx s = 3 * posIdx N p + shapeIdx s := by ring
    have hdiv : (posIdx N p * 3 + shapeIdx s) / 3 = posIdx N p := by
      rw [e1, Nat.mul_add_div (by omega), Nat.div_eq_of_lt hsi, Nat.add_zero]
    have hmod : (posIdx N p * 3 + shapeIdx s) % 3 = shapeIdx s := by
      rw [e1, Nat.mul_add_mod, Nat.mod_eq_of_lt hsi]
    rw [hdiv, hmod, posIdx_mod N p hx, posIdx_div N p hx, shapeOfIdx_shapeIdx]
  | Spread p dir ds =>
    obtain ⟨hx, hy, hne, hpos, hsum⟩ := hv
    have hN : 1 ≤ N := by omega
    have hE2 : 2 ≤ 2 ^ N := by
      calc 2 = 2 ^ 1 := by norm_num
      _ ≤ 2 ^ N := Nat.pow_le_pow_right (by omega) hN
    have henc1 : 1 ≤ encDrops ds := encDrops_pos ds hne
    have hencN : encDrops ds < 2 ^ N :=
      lt_of_lt_of_le (encDrops_lt ds hpos) (Nat.pow_le_pow_right (by omega) hsum)
    have he0 : encDrops ds - 1 < 2 ^ N - 1 := by omega
    have hE : 0 < 2 ^ N - 1 := by omega
    have hpi : posIdx N p < N * N := posIdx_lt N p hx hy
    have hdi : dirIdx dir < 4 := dirIdx_lt dir
    simp only [encodeMove, decodeMove]
    rw [if_neg (by omega)]
    have hsub :
        3 * (N * N) + ((posIdx N p * 4 + dirIdx dir) * (2 ^ N - 1) + (encDrops ds - 1)) -
          3 * (N * N) =
        (posIdx N p * 4 + dirIdx dir) * (2 ^ N - 1) + (encDrops ds - 1) := by omega
    rw [hsub]
    have hq1 :
        ((posIdx N p * 4 + dirIdx dir) * (2 ^ N - 1) + (encDrops ds - 1)) / (2 ^ N - 1) =
          posIdx N p * 4 + dirIdx dir := by
      have hre : (posIdx N p * 4 + dirIdx dir) * (2 ^ N - 1) + (encDrops ds - 1) =
          (2 ^ N - 1) * (posIdx N p * 4 + dirIdx dir) + (encDrops ds - 1) := by ring
      rw [hre, Nat.mul_add_div hE, Nat.div_eq_of_lt he0, Nat.add_zero]
    have hq2 :
        ((posIdx N p * 4 + dirIdx dir) * (2 ^ N - 1) + (encDrops ds - 1)) % (2 ^ N - 1) =
          encDrops ds - 1 := by
      have hre : (posIdx N p * 4 + dirIdx dir) * (2 ^ N - 1) + (encDrops ds - 1) =
          (2 ^ N - 1) * (posIdx N p * 4 + dirIdx dir) + (encDrops ds - 1) := by ring
      rw [hre, Nat.mul_add_mod, Nat.mod_eq_of_lt he0]
    rw [hq1, hq2]
    have hp1 : (posIdx N p * 4 + dirIdx dir) / 4 = posIdx N p := by
      have hre : posIdx N p * 4 + dirIdx dir = 4 * posIdx N p + dirIdx dir := by ring
      rw [hre, Nat.mul_add_div (by omega), Nat.div_eq_of_lt hdi, Nat.add_zero]
    have hp2 : (posIdx N p * 4 + dirIdx dir) % 4 = dirIdx dir := by
      have hre : posIdx N p * 4 + dirIdx dir = 4 * posIdx N p + dirIdx dir := by ring
      rw [hre, Nat.mul_add_mod, Nat.mod_eq_of_lt hdi]
    rw [hp1, hp2, posIdx_mod N p hx, posIdx_div N p hx, dirOfIdx_dirIdx]
    have hplus : encDrops ds - 1 + 1 = encDrops ds := by omega
    rw [hplus, decDrops_encDrops ds hpos]

theorem encodeMove_lt (N : Nat) (t : Turn) (hv : Turn.validGeom N t) :
    encodeMove N t < actionSpaceSize N := by
  cases t with
  | Place p s =>
    obtain ⟨hx, hy⟩ := hv
    have hpi : posIdx N p < N * N := posIdx_lt N p hx hy
    have hsi : shapeIdx s < 3 := shapeIdx_lt s
    simp only [encodeMove, actionSpaceSize]
    omega
  | Spread p dir ds =>
    obtain ⟨hx, hy, hne, hpos, hsum⟩ := hv
    have hN : 1 ≤ N := by omega
    have hE2 : 2 ≤ 2 ^ N := by
      calc 2 = 2 ^ 1 := by norm_num
      _ ≤ 2 ^ N := Nat.pow_le_pow_right (by omega) hN
    have henc1 : 1 ≤ encDrops ds := encDrops_pos ds hne
    have hencN : encDrops ds < 2 ^ N :=
      lt_of_lt_of_le (encDrops_lt ds hpos) (Nat.pow_le_pow_right (by omega) hsum)
    have he0 : encDrops ds - 1 < 2 ^ N - 1 := by omega
    have hpi : posIdx N p < N * N := posIdx_lt N p hx hy
    have hdi : dirIdx dir < 4 := dirIdx_lt dir
    have hpd : posIdx N p * 4 + dirIdx dir + 1 ≤ 4 * (N * N) := by omega
    have hq : (posIdx N p * 4 + dirIdx dir) * (2 ^ N - 1) + (encDrops ds - 1) <
        4 * (N * N) * (2 ^ N - 1) := by
      calc (posIdx N p * 4 + dirIdx dir) * (2 ^ N - 1) + (encDrops ds - 1)
          < (posIdx N p * 4 + dirIdx dir) * (2 ^ N - 1) + (2 ^ N - 1) := by omega
        _ = (posIdx N p * 4 + dirIdx dir + 1) * (2 ^ N - 1) := by ring
        _ ≤ 4 * (N * N) * (2 ^ N - 1) := Nat.mul_le_mul_right _ hpd
    simp only [encodeMove, actionSpaceSize]
    omega

/-- C1: for every board size `N` and every geometrically legal move
`t`, decoding the encoded index returns `t`, the index lies in
`[0, A(N))`, and two distinct legal moves never share an index. -/
theorem move_codec_bijective :
    ∀ (N : Nat) (t : Turn), Turn.validGeom N t →
      decodeMove N (encodeMove N t) = some t ∧
      encodeMove N t < actionSpaceSize N ∧
      ∀ t2 : Turn, Turn.validGeom N t2 → encodeMove N t = encodeMove N t2 → t = t2 := by
  intro N t hv
  refine ⟨decodeMove_encodeMove N t hv, encodeMove_lt N t hv, ?_⟩
  intro t2 hv2 he
  have hr1 := decodeMove_encodeMove N t hv
  have hr2 := decodeMove_encodeMove N t2 hv2
  rw [he] at hr1
  rw [hr1] at hr2
  exact Option.some.inj hr2

/-- Witness for C1: a concrete spread on the 5-by-5 board encoded and
decoded back. -/
theorem move_codec_bijective_witness :
    Turn.validGeom 5 (Turn.Spread ⟨1, 2⟩ Direction.East [2, 1]) ∧
    decodeMove 5 (encodeMove 5 (Turn.Spread ⟨1, 2⟩ Direction.East [2, 1])) =
      some (Turn.Spread ⟨1, 2⟩ Direction.East [2, 1]) :=
  ⟨by decide, (move_codec_bijective 5 (Turn.Spread ⟨1, 2⟩ Direction.East [2, 1]) (by decide)).1⟩

/-! ## PTN text serialization (spec §6)

Modelled from the spec: the `tak::ptn` module (`ToPTN`/`FromPTN`) is
not among the visible sources.  The spec requires that "turns and
games are serializable to/from a textual notation" and that
`to_notation`/`from_notation` "must round-trip for every legal Turn".
The model emits the canonical PTN form of a move — an optional shape
letter and a square for placements; carry count, square, direction
glyph and drop digits for spreads — and parses it back.  Single-digit
ranks and counts cover every supported board size (`N ≤ 9`). -/

/-- File letter of a column (`a` + x). -/
def fileChar (x : Nat) : Char := Char.ofNat (97 + x)

/-- Rank digit of a row (`1` + y). -/
def rankChar (y : Nat) : Char := Char.ofNat (49 + y)

/-- Digit character of a count in `[1, 9]`. -/
def digitChar (d : Nat) : Char := Char.ofNat (48 + d)

/-- Shape glyph: nothing for a flat, `S` for a wall, `C` for a
capstone. -/
def shapeChars : Shape → List Char
  | .Flat => []
  | .Standing => ['S']
  | .Capstone => ['C']

/-- Direction glyph. -/
def dirChar : Direction → Char
  | .North => '+'
  | .South => '-'
  | .East => '>'
  | .West => '<'

/-- `Turn::to_ptn`: render a move in canonical PTN. -/
def Turn.toPTN : Turn → List Char
  | .Place p s => shapeChars s ++ [fileChar p.x, rankChar p.y]
  | .Spread p dir ds =>
      digitChar ds.sum :: fileChar p.x :: rankChar p.y :: dirChar dir :: ds.map digitChar

/-- Parse a file letter. -/
def parseFile (c : Char) : Option Nat :=
  if 97 ≤ c.toNat ∧ c.toNat ≤ 122 then some (c.toNat - 97) else none

/-- Parse a rank digit. -/
def parseRank (c : Char) : Option Nat :=
  if 49 ≤ c.toNat ∧ c.toNat ≤ 57 then some (c.toNat - 49) else none

/-- Parse a nonzero digit as a count. -/
def parseDigit (c : Char) : Option Nat :=
  if 49 ≤ c.toNat ∧ c.toNat ≤ 57 then some (c.toNat - 48) else none

/-- Parse a direction glyph. -/
def parseDir (c : Char) : Option Direction :=
  if c = '+' then some .North
  else if c = '-' then some .South
  else if c = '>' then some .East
  else if c = '<' then some .West
  else none

/-- Parse a sequence of drop-count digits. -/
def parseDrops : List Char → Option (List Nat)
  | [] => some []
  | c :: cs =>
    match parseDigit c, parseDrops cs with
    | some d, some ds => some (d :: ds)
    | _, _ => none

/-- `Turn::from_ptn`: parse a canonical PTN move. -/
def Turn.fromPTN (s : List Char) : Option Turn :=
  match s with
  | ['S', f, r] =>
    match parseFile f, parseRank r with
    | some x, some y => some (.Place ⟨x, y⟩ .Standing)
    | _, _ => none
  | ['C', f, r] =>
    match parseFile f, parseRank r with
    | some x, some y => some (.Place ⟨x, y⟩ .Capstone)
    | _, _ => none
  | [f, r] =>
    match parseFile f, parseRank r with
    | some x, some y => some (.Place ⟨x, y⟩ .Flat)
    | _, _ => none
  | c :: f :: r :: d :: ds =>
    match parseDigit c, parseFile f, parseRank r, parseDir d, parseDrops ds with
    | some n, some x, some y, some dir, some drops =>
        if drops.sum = n ∧ drops ≠ [] then some (.Spread ⟨x, y⟩ dir drops) else none
    | _, _, _, _, _ => none
  | _ => none

theorem parseFile_fileChar (x : Nat) (h : x ≤ 8) : parseFile (fileChar x) = some x := by
  interval_cases x <;> decide

theorem parseRank_rankChar (y : Nat) (h : y ≤ 8) : parseRank (rankChar y) = some y := by
  interval_cases y <;> decide

theorem parseDigit_digitChar (d : Nat) (h1 : 1 ≤ d) (h2 : d ≤ 9) :
    parseDigit (digitChar d) = some d := by
  interval_cases d <;> decide

theorem parseDir_dirChar (dir : Direction) : parseDir (dirChar dir) = some dir := by
  cases dir <;> rfl

theorem parseDrops_map (ds : List Nat) (h : ∀ d ∈ ds, 1 ≤ d ∧ d ≤ 9) :
    parseDrops (ds.map digitChar) = some ds := by
  induction ds with
  | nil => rfl
  | cons d ds ih =>
    obtain ⟨h1, h2⟩ := h d (List.mem_cons_self d ds)
    simp only [List.map_cons, parseDrops, parseDigit_digitChar d h1 h2,
      ih (fun x hx => h x (List.mem_cons_of_mem _ hx))]

/-- C7: on every supported board size (`N ≤ 9`), rendering a legal
move to PTN text and parsing the text back returns the original
move. -/
theorem ptn_round_trip :
    ∀ (N : Nat) (t : Turn), N ≤ 9 → Turn.validGeom N t →
      Turn.fromPTN (Turn.toPTN t) = some t := by
  intro N t hN hv
  cases t with
  | Place p s =>
    obtain ⟨hx, hy⟩ := hv
    have hx8 : p.x ≤ 8 := by omega
    have hy8 : p.y ≤ 8 := by omega
    cases s <;>
      simp [Turn.toPTN, shapeChars, Turn.fromPTN,
        parseFile_fileChar p.x hx8, parseRank_rankChar p.y hy8]
  | Spread p dir ds =>
    obtain ⟨hx, hy, hne, hpos, hsum⟩ := hv
    have hx8 : p.x ≤ 8 := by omega
    have hy8 : p.y ≤ 8 := by omega
    have hsum1 : 1 ≤ ds.sum := by
      cases ds with
      | nil => exact absurd rfl hne
      | cons d ds =>
        have := hpos d (List.mem_cons_self d ds)
        simp only [List.sum_cons]
        omega
    have hsum9 : ds.sum ≤ 9 := by omega
    have hds9 : ∀ d ∈ ds, 1 ≤ d ∧ d ≤ 9 := by
      intro d hd
      have h1 := hpos d hd
      have h2 : d ≤ ds.sum := List.single_le_sum (fun x _ => Nat.zero_le x) d hd
      exact ⟨h1, by omega⟩
    cases ds with
    | nil => exact absurd rfl hne
    | cons d0 ds' =>
      simp only [Turn.toPTN, List.map_cons]
      simp only [Turn.fromPTN,
        parseDigit_digitChar _ hsum1 hsum9,
        parseFile_fileChar p.x hx8, parseRank_rankChar p.y hy8,
        parseDir_dirChar dir]
      have hpd : parseDrops (digitChar d0 :: ds'.map digitChar) = some (d0 :: ds') := by
        have := parseDrops_map (d0 :: ds') hds9
        simpa using this
      simp only [hpd]
      simp [hne]

/-- Witness for C7: a concrete spread on the 5-by-5 board rendered to
PTN and parsed back. -/
theorem ptn_round_trip_witness :
    Turn.validGeom 5 (Turn.Spread ⟨0, 0⟩ Direction.North [1, 2]) ∧
    Turn.fromPTN (Turn.toPTN (Turn.Spread ⟨0, 0⟩ Direction.North [1, 2])) =
      some (Turn.Spread ⟨0, 0⟩ Direction.North [1, 2]) :=
  ⟨by decide, ptn_round_trip 5 (Turn.Spread ⟨0, 0⟩ Direction.North [1, 2]) (by decide) (by decide)⟩

/-! ## Game state and move application (spec §3, §4.1)

Modelled from the spec: the `tak::game` / `tak::board` modules are not
among the visible sources.  The data model follows spec §3 — an
`N`-by-`N` grid of stacks of (owner colour, shape) ordered bottom to
top, per-colour reserves, a ply counter, side to move and komi — and
`play` performs the validations named in spec §4.1 / §7 (stack
ownership, drop-count partition, landing on a standing wall without a
capstone, reserves, bounds) before mutating anything, so a failed
attempt is atomic.  Terminal-result recomputation is outside the
properties checked here and is not modelled. -/

/-- A stack of pieces on one square, bottom to top. -/
abbrev Stack := List (Colour × Shape)

/-- Per-colour reserve counts. -/
structure Reserves where
  flats : Nat
  caps : Nat
deriving DecidableEq, Repr

/-- The game state. -/
structure Game where
  size : Nat
  board : List (List Stack)
  to_move : Colour
  ply : Nat
  komi : Int
  white : Reserves
  black : Reserves
deriving DecidableEq, Repr

/-- The stack on a square (empty when out of range). -/
def Game.getStack (g : Game) (p : Pos) : Stack :=
  (g.board.getD p.x []).getD p.y []

/-- Replace the stack on a square. -/
def Game.setStack (g : Game) (p : Pos) (s : Stack) : Game :=
  { g with board := g.board.set p.x ((g.board.getD p.x []).set p.y s) }

/-- Reserves of a colour. -/
def Game.reservesOf (g : Game) (c : Colour) : Reserves :=
  match c with
  | .White => g.white
  | .Black => g.black

/-- Update the reserves of a colour. -/
def Game.setReserves (g : Game) (c : Colour) (r : Reserves) : Game :=
  match c with
  | .White => { g with white := r }
  | .Black => { g with black := r }

/-- Colour owning a stack: the owner of its top piece. -/
def stackOwner (s : Stack) : Option Colour := s.getLast?.map Prod.fst

/-- Shape of the top piece of a stack. -/
def stackTopShape (s : Stack) : Option Shape := s.getLast?.map Prod.snd

/-- Turn a standing top piece into a flat one (capstone flattening). -/
def flattenTop (s : Stack) : Stack :=
  match s.getLast? with
  | some (c, _) => s.dropLast ++ [(c, Shape.Flat)]
  | none => s

/-- One step in a direction; `none` when it would leave the grid at
the low edges. -/
def stepPos (p : Pos) (d : Direction) : Option Pos :=
  match d with
  | .North => some ⟨p.x, p.y + 1⟩
  | .East => some ⟨p.x + 1, p.y⟩
  | .South => if p.y = 0 then none else some ⟨p.x, p.y - 1⟩
  | .West => if p.x = 0 then none else some ⟨p.x - 1, p.y⟩

/-- Whether a square is on the board. -/
def Game.inBounds (g : Game) (p : Pos) : Bool :=
  decide (p.x < g.size) && decide (p.y < g.size)

/-- Whether the mover has a piece of this shape left in reserve. -/
def Game.hasReserve (g : Game) (shape : Shape) : Bool :=
  match shape with
  | .Capstone => decide (0 < (g.reservesOf g.to_move).caps)
  | _ => decide (0 < (g.reservesOf g.to_move).flats)

/-- Validate the path of a spread: every drop square is on the board,
and a standing wall may only be landed on by the lone capstone as the
final drop. -/
def checkDrops (g : Game) : Pos → Direction → List Nat → Stack → Option String
  | _, _, [], _ => none
  | p, d, di :: rest, carried =>
    match stepPos p d with
    | none => some "out-of-bounds path"
    | some q =>
      if g.inBounds q = false then some "out-of-bounds path"
      else
        let wallOK : Bool :=
          match stackTopShape (g.getStack q) with
          | some .Standing =>
              decide (rest = []) && decide (di = 1) &&
                decide (stackTopShape (carried.take di) = some Shape.Capstone)
          | _ => true
        if wallOK = false then some "landing on a standing wall without a capstone"
        else checkDrops g q d rest (carried.drop di)

/-- Execute a validated spread: walk the path, flattening a standing
wall under an arriving capstone and appending the dropped pieces. -/
def execDrops (g : Game) : Pos → Direction → List Nat → Stack → Game
  | _, _, [], _ => g
  | p, d, di :: rest, carried =>
    match stepPos p d with
    | none => g
    | some q =>
      let target := g.getStack q
      let dropped := carried.take di
      let target2 :=
        if stackTopShape target = some Shape.Standing ∧
            stackTopShape dropped = some Shape.Capstone
        then flattenTop target else target
      execDrops (g.setStack q (target2 ++ dropped)) q d rest (carried.drop di)

/-- Apply a validated placement: push the piece, pay the reserve,
advance ply and side to move. -/
def Game.placePiece (g : Game) (p : Pos) (shape : Shape) : Game :=
  let g1 := g.setStack p (g.getStack p ++ [(g.to_move, shape)])
  let r := g.reservesOf g.to_move
  let r2 :=
    match shape with
    | Shape.Capstone => { r with caps := r.caps - 1 }
    | _ => { r with flats := r.flats - 1 }
  let g2 := g1.setReserves g.to_move r2
  { g2 with ply := g.ply + 1, to_move := g.to_move.next }

/-- `Game::play`: validate the move fully — bounds, stack ownership,
drop-count partition, wall landings, reserves — and only then build
the successor state; any validation failure is reported without
touching the state. -/
def Game.play (g : Game) : Turn → Except String Game
  | .Place p shape =>
    if g.inBounds p = false then .error "out-of-bounds placement"
    else if g.hasReserve shape = false then .error "insufficient reserves"
    else .ok (g.placePiece p shape)
  | .Spread p dir drops =>
    if g.inBounds p = false then .error "out-of-bounds path"
    else
      let stack := g.getStack p
      if stackOwner stack ≠ some g.to_move then .error "wrong stack ownership"
      else if ¬(drops ≠ [] ∧ (∀ d ∈ drops, 1 ≤ d) ∧ drops.sum ≤ g.size ∧
          drops.sum ≤ stack.length) then .error "invalid drop partition"
      else
        match checkDrops g p dir drops (stack.drop (stack.length - drops.sum)) with
        | some e => .error e
        | none =>
          let g1 := g.setStack p (stack.take (stack.length - drops.sum))
          let g2 := execDrops g1 p dir drops (stack.drop (stack.length - drops.sum))
          .ok { g2 with ply := g.ply + 1, to_move := g.to_move.next }

/-- `play` as seen through a `&mut self` receiver: on error the
caller keeps the original state together with the reported message. -/
def Game.playM (g : Game) (t : Turn) : Game × Option String :=
  match g.play t with
  | .ok g2 => (g2, none)
  | .error e => (g, some e)

/-- C2: if `play` fails validation it reports the error to the caller
and the state after the call is the state before it — the attempt is
atomic. -/
theorem play_validation_atomic :
    ∀ (g : Game) (t : Turn) (e : String),
      (Game.play g t = .error e → Game.playM g t = (g, some e)) ∧
      (∀ g2, Game.playM g t = (g2, some e) → g2 = g) := by
  intro g t e
  constructor
  · intro h
    unfold Game.playM
    rw [h]
  · intro g2 h
    unfold Game.playM at h
    cases hp : g.play t with
    | ok gg =>
      rw [hp] at h
      simp at h
    | error ee =>
      rw [hp] at h
      simp at h
      exact h.1.symm

/-- Fresh 5-by-5 game with komi 2 and standard reserves. -/
def initialGame : Game where
  size := 5
  board := List.replicate 5 (List.replicate 5 [])
  to_move := Colour.White
  ply := 0
  komi := 2
  white := ⟨21, 1⟩
  black := ⟨21, 1⟩

/-- Witness for C2: spreading from an empty square fails the
ownership check and leaves the fresh game untouched. -/
theorem play_validation_atomic_witness :
    (Game.playM initialGame (Turn.Spread ⟨0, 0⟩ Direction.North [1])).1 = initialGame :=
  (play_validation_atomic initialGame (Turn.Spread ⟨0, 0⟩ Direction.North [1])
      "wrong stack ownership").2
    (Game.playM initialGame (Turn.Spread ⟨0, 0⟩ Direction.North [1])).1 (by rfl)
